import Mathlib

/-!
Verification of the ChemPy molecular graph engine.

Part 1 embeds `Species.generateResonanceIsomers` from `chempy/species.py`.
The Molecule operations it calls (`getAdjacentResonanceIsomers`,
`isIsomorphic`, `updateAtomTypes`, the per-atom `radicalElectrons` counts)
live in `chempy/molecule.py`, which is consumed as a primitive here, so the
embedding is parametric in those operations.

Part 2 models the Molecule layer itself (graph labels, SSSR ring
perception, full-graph isomorphism), following the specification of
`getSmallestSetOfSmallestRings` and `isIsomorphic`.
-/

/-- Inner loop body of `generateResonanceIsomers`: a single candidate
`cand` produced by `getAdjacentResonanceIsomers` is tested with
`isom.isIsomorphic(cand)` against every molecule already in the list; if
none matches, the candidate is appended (its derived atom-type labels being
refreshed in place by `updateAtomTypes`, modelled by `upd`). -/
def processCandidate {M : Type} (iso : M → M → Bool) (upd : M → M)
    (mols : List M) (cand : M) : List M :=
  if mols.any (fun isom => iso isom cand) then mols else mols ++ [upd cand]

/-- The `for newIsomer in newIsomers` loop of `generateResonanceIsomers`:
each candidate is processed against the current (growing) molecule list. -/
def processNew {M : Type} (iso : M → M → Bool) (upd : M → M)
    (mols : List M) (cands : List M) : List M :=
  cands.foldl (processCandidate iso upd) mols

/-- The `while index < len(self.molecule)` worklist loop of
`generateResonanceIsomers`, with explicit fuel: at each step the isomer at
the current index is expanded via `getAdjacentResonanceIsomers` (modelled
by `adj`) and its candidates are deduplicated into the list. Returns the
final list and the final index. -/
def resonanceRun {M : Type} (adj : M → List M) (iso : M → M → Bool)
    (upd : M → M) : Nat → List M → Nat → List M × Nat
  | 0, mols, i => (mols, i)
  | fuel + 1, mols, i =>
    if h : i < mols.length then
      resonanceRun adj iso upd fuel
        (processNew iso upd mols (adj (mols.get ⟨i, h⟩))) (i + 1)
    else (mols, i)

/-- `sum([atom.radicalElectrons for atom in m.atoms])`, where `rads m` is
the list of radical-electron counts of the atoms of `m`. -/
def radicalSum {M : Type} (rads : M → List Nat) (m : M) : Nat :=
  (rads m).sum

/-- `Species.generateResonanceIsomers` from `chempy/species.py`: return
unchanged unless the molecule list has exactly one element; run the
radical-driven worklist search only if the seed has a positive total
radical-electron count. -/
def generateResonanceIsomers {M : Type} (adj : M → List M)
    (iso : M → M → Bool) (upd : M → M) (rads : M → List Nat)
    (fuel : Nat) (mols : List M) : List M :=
  match mols with
  | [seed] =>
    if 0 < radicalSum rads seed then
      (resonanceRun adj iso upd fuel [seed] 0).1
    else [seed]
  | _ => mols

section ResonanceLemmas

variable {M : Type} (adj : M → List M) (iso : M → M → Bool) (upd : M → M)

theorem processCandidate_cases (mols : List M) (cand : M) :
    processCandidate iso upd mols cand = mols ∨
      processCandidate iso upd mols cand = mols ++ [upd cand] := by
  unfold processCandidate
  split <;> simp

theorem processNew_extends (cands : List M) (mols : List M) :
    ∃ t, processNew iso upd mols cands = mols ++ t := by
  induction cands generalizing mols with
  | nil => exact ⟨[], by simp [processNew]⟩
  | cons c cs ih =>
    rcases processCandidate_cases iso upd mols c with h | h
    · rcases ih (processCandidate iso upd mols c) with ⟨t, ht⟩
      exact ⟨t, by simpa [processNew, h] using ht⟩
    · rcases ih (processCandidate iso upd mols c) with ⟨t, ht⟩
      exact ⟨upd c :: t, by simp [processNew] at ht ⊢; rw [ht, h]; simp⟩

theorem resonanceRun_extends (fuel : Nat) (mols : List M) (i : Nat) :
    ∃ t, (resonanceRun adj iso upd fuel mols i).1 = mols ++ t := by
  induction fuel generalizing mols i with
  | zero => exact ⟨[], by simp [resonanceRun]⟩
  | succ fuel ih =>
    by_cases h : i < mols.length
    · rcases processNew_extends iso upd (adj (mols.get ⟨i, h⟩)) mols with ⟨t₁, ht₁⟩
      rcases ih (processNew iso upd mols (adj (mols.get ⟨i, h⟩))) (i + 1) with ⟨t₂, ht₂⟩
      refine ⟨t₁ ++ t₂, ?_⟩
      rw [resonanceRun, dif_pos h, ht₂, ht₁, List.append_assoc]
    · exact ⟨[], by rw [resonanceRun, dif_neg h]; simp⟩

theorem resonanceRun_stop (fuel : Nat) (mols : List M) (i : Nat)
    (h : ¬ i < mols.length) :
    resonanceRun adj iso upd fuel mols i = (mols, i) := by
  cases fuel with
  | zero => rfl
  | succ fuel => rw [resonanceRun, dif_neg h]

end ResonanceLemmas

/-- C9 — An empty molecule list: the `len(self.molecule) != 1` guard fires,
the method returns without touching `self.molecule[0]`, and the list is
unchanged. -/
theorem generate_empty_list {M : Type} (adj : M → List M)
    (iso : M → M → Bool) (upd : M → M) (rads : M → List Nat) (fuel : Nat) :
    generateResonanceIsomers adj iso upd rads fuel ([] : List M) = [] := rfl

/-- C2 — If the molecule list already holds more than one isomer,
`generateResonanceIsomers` is a no-op: the list is returned unchanged,
same elements in the same order. -/
theorem generate_multi_noop {M : Type} (adj : M → List M)
    (iso : M → M → Bool) (upd : M → M) (rads : M → List Nat) (fuel : Nat)
    (mols : List M) (h : 1 < mols.length) :
    generateResonanceIsomers adj iso upd rads fuel mols = mols := by
  match mols, h with
  | a :: b :: rest, _ => rfl

/-- Witness for C2 at a concrete two-element species. -/
theorem generate_multi_noop_witness :
    1 < [5, 7].length ∧
      generateResonanceIsomers (fun n => [n + 1]) (fun a b => decide (a = b))
        id (fun _ => [1]) 9 [5, 7] = [5, 7] :=
  ⟨by decide,
    generate_multi_noop (fun n => [n + 1]) (fun a b => decide (a = b))
      id (fun _ => [1]) 9 [5, 7] (by decide)⟩

/-- C3 — A single seed molecule with zero total radical electrons: the
radical guard fails and the list still holds exactly the seed. -/
theorem generate_no_radical_noop {M : Type} (adj : M → List M)
    (iso : M → M → Bool) (upd : M → M) (rads : M → List Nat) (fuel : Nat)
    (m : M) (h : radicalSum rads m = 0) :
    generateResonanceIsomers adj iso upd rads fuel [m] = [m] := by
  show (if 0 < radicalSum rads m then
      (resonanceRun adj iso upd fuel [m] 0).1 else [m]) = [m]
  rw [if_neg]
  omega

/-- Witness for C3 at a concrete radical-free species. -/
theorem generate_no_radical_noop_witness :
    radicalSum (fun _ : Nat => ([] : List Nat)) 5 = 0 ∧
      generateResonanceIsomers (fun n => [n + 1]) (fun a b => decide (a = b))
        id (fun _ => []) 9 [5] = [5] :=
  ⟨by decide,
    generate_no_radical_noop (fun n => [n + 1]) (fun a b => decide (a = b))
      id (fun _ => []) 9 5 (by decide)⟩

/-- C10 — `generateResonanceIsomers` only appends: the original molecule
list is an initial segment of the result, so every prior element keeps its
index and the seed stays at index 0. -/
theorem generate_only_appends {M : Type} (adj : M → List M)
    (iso : M → M → Bool) (upd : M → M) (rads : M → List Nat) (fuel : Nat)
    (mols : List M) :
    ∃ t, generateResonanceIsomers adj iso upd rads fuel mols = mols ++ t := by
  match mols with
  | [] => exact ⟨[], rfl⟩
  | [seed] =>
    show (∃ t, (if 0 < radicalSum rads seed then
        (resonanceRun adj iso upd fuel [seed] 0).1 else [seed]) = [seed] ++ t)
    split
    · exact resonanceRun_extends adj iso upd fuel [seed] 0
    · exact ⟨[], by simp⟩
  | a :: b :: rest =>
    refine ⟨[], ?_⟩
    rw [List.append_nil]
    rfl

/-- C1 — Dedup step of the worklist loop: a candidate is appended (with its
atom types refreshed) exactly when no molecule already in the list is
isomorphic to it, and is discarded (list unchanged) exactly when some
already-present molecule matches it. -/
theorem candidate_append_iff {M : Type} (iso : M → M → Bool) (upd : M → M)
    (mols : List M) (cand : M) :
    (processCandidate iso upd mols cand = mols ++ [upd cand] ↔
        ∀ isom ∈ mols, iso isom cand = false) ∧
      (processCandidate iso upd mols cand = mols ↔
        ∃ isom ∈ mols, iso isom cand = true) := by
  unfold processCandidate
  by_cases h : mols.any (fun isom => iso isom cand)
  · rw [if_pos h]
    simp only [List.any_eq_true] at h
    constructor
    · constructor
      · intro heq
        have := congrArg List.length heq
        simp at this
      · intro hall
        rcases h with ⟨x, hx, hiso⟩
        rw [hall x hx] at hiso
        cases hiso
    · simpa using h
  · rw [if_neg h]
    simp only [List.any_eq_true, not_exists] at h
    constructor
    · constructor
      · intro _ isom hm
        have := h isom
        simp [hm] at this
        exact this
      · intro _; rfl
    · constructor
      · intro heq
        have := congrArg List.length heq
        simp at this
      · intro ⟨x, hx, hiso⟩
        have := h x
        simp [hx, hiso] at this

/-- C4 — Idempotence: a second call to `generateResonanceIsomers` leaves
the list produced by the first call unchanged. If the first call produced
more than one isomer the guard fires; if it produced exactly one, the list
is still `[seed]` (the run never appended) and the second run repeats the
first verbatim. -/
theorem generate_idempotent {M : Type} (adj : M → List M)
    (iso : M → M → Bool) (upd : M → M) (rads : M → List Nat) (fuel : Nat)
    (mols : List M) :
    generateResonanceIsomers adj iso upd rads fuel
        (generateResonanceIsomers adj iso upd rads fuel mols) =
      generateResonanceIsomers adj iso upd rads fuel mols := by
  match mols with
  | [] => rfl
  | a :: b :: rest => rfl
  | [seed] =>
    have heq : generateResonanceIsomers adj iso upd rads fuel [seed] =
        if 0 < radicalSum rads seed then
          (resonanceRun adj iso upd fuel [seed] 0).1
        else [seed] := rfl
    by_cases hrad : 0 < radicalSum rads seed
    · rw [heq, if_pos hrad]
      rcases resonanceRun_extends adj iso upd fuel [seed] 0 with ⟨t, ht⟩
      match t, ht with
      | [], ht =>
        simp only [List.append_nil] at ht
        rw [ht, heq, if_pos hrad, ht]
      | x :: xs, ht =>
        rw [ht]
        rfl
    · rw [heq, if_neg hrad, heq, if_neg hrad]

/-! ### Termination of the worklist loop (C5)

The loop index advances by one each iteration while the list grows only by
deduplicated isomers, so if the isomers reachable from the seed fall into
finitely many isomorphism classes the list length is bounded and the index
catches up with it. -/

/-- Molecules reachable from the seed by repeated
`getAdjacentResonanceIsomers` moves, each new isomer having its atom types
refreshed as in the loop body. -/
inductive ResReach {M : Type} (adj : M → List M) (upd : M → M) (seed : M) :
    M → Prop
  | init : ResReach adj upd seed seed
  | step {m c : M} : ResReach adj upd seed m → c ∈ adj m →
      ResReach adj upd seed (upd c)

/-- The molecule list holds pairwise non-isomorphic entries. -/
def PairwiseNonIso {M : Type} (iso : M → M → Bool) (mols : List M) : Prop :=
  mols.Pairwise (fun a b => iso a b = false)

section TerminationLemmas

variable {M : Type} (adj : M → List M) (iso : M → M → Bool) (upd : M → M)

theorem processNew_reach (seed m : M) (cands : List M)
    (hm : ResReach adj upd seed m) (hc : ∀ c ∈ cands, c ∈ adj m) :
    ∀ mols : List M, (∀ x ∈ mols, ResReach adj upd seed x) →
      ∀ x ∈ processNew iso upd mols cands, ResReach adj upd seed x := by
  induction cands with
  | nil => intro mols hmols; simpa [processNew] using hmols
  | cons c cs ih =>
    intro mols hmols
    have hstep : processNew iso upd mols (c :: cs) =
        processNew iso upd (processCandidate iso upd mols c) cs := rfl
    rw [hstep]
    apply ih
    · intro c' hc'; exact hc c' (List.mem_cons_of_mem _ hc')
    · intro x hx
      rcases processCandidate_cases iso upd mols c with h | h
      · rw [h] at hx; exact hmols x hx
      · rw [h] at hx
        rcases List.mem_append.mp hx with h1 | h2
        · exact hmols x h1
        · have : x = upd c := by simpa using h2
          subst this
          exact ResReach.step hm (hc c (List.mem_cons_self _ _))

theorem processCandidate_pairwise
    (hupd : ∀ a b, iso a (upd b) = iso a b) (mols : List M) (cand : M)
    (h : PairwiseNonIso iso mols) :
    PairwiseNonIso iso (processCandidate iso upd mols cand) := by
  unfold processCandidate
  split
  · exact h
  · rename_i hany
    have hall : ∀ x ∈ mols, iso x cand = false := by
      intro x hx
      cases hxc : iso x cand with
      | false => rfl
      | true => exact absurd (List.any_eq_true.mpr ⟨x, hx, hxc⟩) hany
    refine List.pairwise_append.mpr ⟨h, List.pairwise_singleton _ _, ?_⟩
    intro a ha b hb
    have : b = upd cand := by simpa using hb
    subst this
    rw [hupd]
    exact hall a ha

theorem processNew_pairwise
    (hupd : ∀ a b, iso a (upd b) = iso a b) (cands : List M) :
    ∀ mols : List M, PairwiseNonIso iso mols →
      PairwiseNonIso iso (processNew iso upd mols cands) := by
  induction cands with
  | nil => intro mols h; simpa [processNew] using h
  | cons c cs ih =>
    intro mols h
    have hstep : processNew iso upd mols (c :: cs) =
        processNew iso upd (processCandidate iso upd mols c) cs := rfl
    rw [hstep]
    exact ih _ (processCandidate_pairwise iso upd hupd mols c h)

theorem pairwise_length_le
    (hsymm : ∀ a b, iso a b = iso b a)
    (htrans : ∀ a b c, iso a b = true → iso b c = true → iso a c = true)
    (mols : List M) (hp : PairwiseNonIso iso mols) :
    ∀ R : List M, (∀ x ∈ mols, ∃ r ∈ R, iso r x = true) →
      mols.length ≤ R.length := by
  classical
  induction mols with
  | nil => intro R _; simp
  | cons x xs ih =>
    intro R hcov
    rcases hcov x (List.mem_cons_self _ _) with ⟨r, hr, hrx⟩
    rcases List.pairwise_cons.mp hp with ⟨hx, hxs⟩
    have hcov' : ∀ y ∈ xs, ∃ r' ∈ R.erase r, iso r' y = true := by
      intro y hy
      rcases hcov y (List.mem_cons_of_mem _ hy) with ⟨r', hr', hr'y⟩
      refine ⟨r', ?_, hr'y⟩
      have hne : r' ≠ r := by
        intro heq; subst heq
        have h1 : iso x r' = true := by rw [hsymm]; exact hrx
        have h2 : iso x y = true := htrans _ _ _ h1 hr'y
        rw [hx y hy] at h2
        cases h2
      exact (List.mem_erase_of_ne hne).mpr hr'
    have hlen := ih hxs (R.erase r) hcov'
    have he := List.length_erase_of_mem hr
    have hRpos : 0 < R.length := List.length_pos_of_mem hr
    rw [he] at hlen
    simp only [List.length_cons]
    omega

theorem resonanceRun_index_le :
    ∀ (fuel : Nat) (mols : List M) (i : Nat), i ≤ mols.length →
      (resonanceRun adj iso upd fuel mols i).2 ≤
        (resonanceRun adj iso upd fuel mols i).1.length := by
  intro fuel
  induction fuel with
  | zero => intro mols i h; simpa [resonanceRun] using h
  | succ fuel ih =>
    intro mols i h
    by_cases hlt : i < mols.length
    · rw [resonanceRun, dif_pos hlt]
      apply ih
      rcases processNew_extends iso upd
        (adj (mols.get ⟨i, hlt⟩)) mols with ⟨t, ht⟩
      rw [ht, List.length_append]
      omega
    · rw [resonanceRun_stop adj iso upd (fuel + 1) mols i hlt]
      exact h

theorem resonanceRun_bounded (seed : M) (R : List M)
    (hsymm : ∀ a b, iso a b = iso b a)
    (htrans : ∀ a b c, iso a b = true → iso b c = true → iso a c = true)
    (hupd : ∀ a b, iso a (upd b) = iso a b)
    (hR : ∀ m, ResReach adj upd seed m → ∃ r ∈ R, iso r m = true) :
    ∀ (fuel : Nat) (mols : List M) (i : Nat),
      (∀ x ∈ mols, ResReach adj upd seed x) → PairwiseNonIso iso mols →
      R.length + 1 ≤ fuel + i →
      (resonanceRun adj iso upd fuel mols i).1.length ≤
        (resonanceRun adj iso upd fuel mols i).2 := by
  intro fuel
  induction fuel with
  | zero =>
    intro mols i hreach hpw hf
    have hlen := pairwise_length_le iso hsymm htrans mols hpw R
      (fun x hx => hR x (hreach x hx))
    simp only [resonanceRun]
    omega
  | succ fuel ih =>
    intro mols i hreach hpw hf
    by_cases hlt : i < mols.length
    · rw [resonanceRun, dif_pos hlt]
      apply ih
      · exact processNew_reach adj iso upd seed (mols.get ⟨i, hlt⟩)
          (adj (mols.get ⟨i, hlt⟩)) (hreach _ (mols.get_mem _ _))
          (fun c hc => hc) mols hreach
      · exact processNew_pairwise iso upd hupd
          (adj (mols.get ⟨i, hlt⟩)) mols hpw
      · omega
    · rw [resonanceRun_stop adj iso upd (fuel + 1) mols i hlt]
      show mols.length ≤ i
      omega

theorem resonanceRun_stable :
    ∀ (fuel : Nat) (mols : List M) (i : Nat),
      (resonanceRun adj iso upd fuel mols i).1.length ≤
        (resonanceRun adj iso upd fuel mols i).2 →
      ∀ extra, resonanceRun adj iso upd (fuel + extra) mols i =
        resonanceRun adj iso upd fuel mols i := by
  intro fuel
  induction fuel with
  | zero =>
    intro mols i hdone extra
    simp only [resonanceRun] at hdone
    rw [resonanceRun_stop adj iso upd (0 + extra) mols i (by omega)]
    rfl
  | succ fuel ih =>
    intro mols i hdone extra
    by_cases hlt : i < mols.length
    · have e1 : resonanceRun adj iso upd (fuel + 1) mols i =
          resonanceRun adj iso upd fuel
            (processNew iso upd mols (adj (mols.get ⟨i, hlt⟩))) (i + 1) := by
        rw [resonanceRun, dif_pos hlt]
      have e2 : resonanceRun adj iso upd (fuel + 1 + extra) mols i =
          resonanceRun adj iso upd (fuel + extra)
            (processNew iso upd mols (adj (mols.get ⟨i, hlt⟩))) (i + 1) := by
        rw [show fuel + 1 + extra = (fuel + extra) + 1 by omega,
          resonanceRun, dif_pos hlt]
      rw [e2, e1]
      rw [e1] at hdone
      exact ih _ _ hdone extra
    · rw [resonanceRun_stop adj iso upd (fuel + 1 + extra) mols i hlt,
        resonanceRun_stop adj iso upd (fuel + 1) mols i hlt]

end TerminationLemmas

/-- C5 — Termination of the worklist loop: if `isIsomorphic` is an
equivalence preserved by the atom-type refresh, and the isomers reachable
from the seed are covered by finitely many representatives `R` up to
isomorphism, then some finite fuel exhausts the loop (the index reaches the
list length) and adding more fuel changes nothing. -/
theorem resonance_loop_terminates {M : Type} (adj : M → List M)
    (iso : M → M → Bool) (upd : M → M) (seed : M)
    (hrefl : ∀ a, iso a a = true)
    (hsymm : ∀ a b, iso a b = iso b a)
    (htrans : ∀ a b c, iso a b = true → iso b c = true → iso a c = true)
    (hupd : ∀ a b, iso a (upd b) = iso a b)
    (R : List M)
    (hR : ∀ m, ResReach adj upd seed m → ∃ r ∈ R, iso r m = true) :
    ∃ fuel,
      (resonanceRun adj iso upd fuel [seed] 0).2 =
        (resonanceRun adj iso upd fuel [seed] 0).1.length ∧
      ∀ extra, resonanceRun adj iso upd (fuel + extra) [seed] 0 =
        resonanceRun adj iso upd fuel [seed] 0 := by
  refine ⟨R.length + 1, ?_, ?_⟩
  · have h1 := resonanceRun_bounded adj iso upd seed R hsymm htrans hupd hR
      (R.length + 1) [seed] 0
      (by intro x hx; have : x = seed := by simpa using hx
          subst this; exact ResReach.init)
      (List.pairwise_singleton _ _) (by omega)
    have h2 := resonanceRun_index_le adj iso upd (R.length + 1) [seed] 0
      (by simp)
    omega
  · intro extra
    apply resonanceRun_stable
    exact resonanceRun_bounded adj iso upd seed R hsymm htrans hupd hR
      (R.length + 1) [seed] 0
      (by intro x hx; have : x = seed := by simpa using hx
          subst this; exact ResReach.init)
      (List.pairwise_singleton _ _) (by omega)

/-- Witness for C5: a seed with no adjacent isomers and equality as the
isomorphism test; the single class `[0]` covers everything reachable. -/
theorem resonance_loop_terminates_witness :
    ∃ fuel,
      (resonanceRun (fun _ : Nat => ([] : List Nat))
          (fun a b => decide (a = b)) id fuel [0] 0).2 =
        (resonanceRun (fun _ : Nat => ([] : List Nat))
          (fun a b => decide (a = b)) id fuel [0] 0).1.length ∧
      ∀ extra, resonanceRun (fun _ : Nat => ([] : List Nat))
          (fun a b => decide (a = b)) id (fuel + extra) [0] 0 =
        resonanceRun (fun _ : Nat => ([] : List Nat))
          (fun a b => decide (a = b)) id fuel [0] 0 :=
  resonance_loop_terminates (fun _ => []) (fun a b => decide (a = b)) id 0
    (by intro a; simp)
    (by intro a b
        by_cases h : a = b
        · subst h; rfl
        · have h' : ¬ b = a := fun hba => h hba.symm
          simp [h, h'])
    (by intro a b c h1 h2
        simp only [decide_eq_true_eq] at h1 h2 ⊢
        omega)
    (by intro a b; rfl)
    [0]
    (by intro m h
        cases h with
        | init => exact ⟨0, by simp, by simp⟩
        | step hm hc => exact absurd hc (by simp))

/-! ### The Molecule layer: spanning-forest labels and SSSR (C6, C7)

`chempy/graph.py` / `chempy/molecule.py` are consumed by the sources above
but are not part of them, so the ring-perception algorithm is modelled from
the spec. Vertices are indices `0 .. n-1`; edges are endpoint pairs. -/

/-- Component label of vertex `u` in a labelling list (one entry per
vertex). -/
def getL (labels : List Nat) (u : Nat) : Nat :=
  labels.getD u 0

/-- Modelled from the spec: one step of spanning-forest construction. If
the edge's endpoints already share a component label it is left alone;
otherwise the two components are merged by relabelling. -/
def stepLabels (labels : List Nat) (e : Nat × Nat) : List Nat :=
  if getL labels e.1 = getL labels e.2 then labels
  else labels.map (fun x => if x = getL labels e.2 then getL labels e.1 else x)

/-- Component labels after processing all edges in order, starting from
the discrete labelling `0, 1, ..., n-1`. -/
def foldLabels (n : Nat) (edges : List (Nat × Nat)) : List Nat :=
  edges.foldl stepLabels (List.range n)

/-- Undirected adjacency given by an edge list. -/
def adjE (edges : List (Nat × Nat)) (u v : Nat) : Prop :=
  (u, v) ∈ edges ∨ (v, u) ∈ edges

/-- Connectivity: reflexive-transitive closure of adjacency. -/
def EReach (edges : List (Nat × Nat)) : Nat → Nat → Prop :=
  Relation.ReflTransGen (adjE edges)

/-- Neighbours of `u` in the edge list. -/
def neighborsOf (edges : List (Nat × Nat)) (u : Nat) : List Nat :=
  edges.foldr
    (fun e acc =>
      if e.1 = u then e.2 :: acc else if e.2 = u then e.1 :: acc else acc) []

/-- One BFS expansion of a path (stored head-first) to unvisited
neighbours. -/
def expandPath (edges : List (Nat × Nat)) (visited : List Nat)
    (p : List Nat) : List (List Nat) :=
  (neighborsOf edges (p.headD 0)).foldr
    (fun v acc => if visited.contains v then acc else (v :: p) :: acc) []

/-- Modelled from the spec: breadth-first search for a shortest path to
`target`, level by level, with explicit fuel. -/
def bfsPaths (edges : List (Nat × Nat)) (target : Nat) :
    Nat → List (List Nat) → List Nat → Option (List Nat)
  | 0, _, _ => none
  | fuel + 1, border, visited =>
    match border.find? (fun p => p.headD 0 == target) with
    | some p => some p
    | none =>
      let next := border.foldr (fun p acc => expandPath edges visited p ++ acc) []
      bfsPaths edges target fuel next (visited ++ next.map (fun p => p.headD 0))

/-- Modelled from the spec: the smallest ring through an extra (non-tree)
edge — the shortest path between its endpoints avoiding that edge, closed
by the edge itself. -/
def ringFor (edges : List (Nat × Nat)) (e : Nat × Nat) : List Nat :=
  match bfsPaths (edges.erase e) e.1 (edges.length + 2) [[e.2]] [e.2] with
  | some p => p
  | none => [e.1, e.2]

/-- Modelled from the spec: one step of ring perception. A tree edge (new
component connection) merges labels; an extra edge contributes the
smallest ring through it. -/
def sssrStep (edges : List (Nat × Nat)) (st : List Nat × List (List Nat))
    (e : Nat × Nat) : List Nat × List (List Nat) :=
  if getL st.1 e.1 = getL st.1 e.2 then (st.1, st.2 ++ [ringFor edges e])
  else (stepLabels st.1 e, st.2)

/-- Modelled from the spec: `getSmallestSetOfSmallestRings` on an index
graph — a spanning forest is grown over the edges in order and every edge
not in the forest contributes exactly one smallest ring. -/
def sssrRings (n : Nat) (edges : List (Nat × Nat)) : List (List Nat) :=
  (edges.foldl (sssrStep edges) (List.range n, [])).2

theorem stepLabels_length (labels : List Nat) (e : Nat × Nat) :
    (stepLabels labels e).length = labels.length := by
  unfold stepLabels
  split <;> simp

theorem foldLabels_length_aux (es : List (Nat × Nat)) :
    ∀ labels : List Nat, (es.foldl stepLabels labels).length = labels.length := by
  induction es with
  | nil => intro labels; rfl
  | cons e es ih =>
    intro labels
    rw [List.foldl_cons, ih, stepLabels_length]

theorem foldLabels_length (n : Nat) (edges : List (Nat × Nat)) :
    (foldLabels n edges).length = n := by
  unfold foldLabels
  rw [foldLabels_length_aux, List.length_range]

theorem getL_range (n u : Nat) (h : u < n) : getL (List.range n) u = u := by
  unfold getL
  rw [List.getD_eq_getElem _ _ (by simpa using h)]
  simp

theorem adjE_symm (edges : List (Nat × Nat)) (u v : Nat)
    (h : adjE edges u v) : adjE edges v u := h.symm

theorem EReach_symm (edges : List (Nat × Nat)) (u v : Nat)
    (h : EReach edges u v) : EReach edges v u := by
  induction h with
  | refl => exact Relation.ReflTransGen.refl
  | tail _ hadj ih =>
    exact Relation.ReflTransGen.trans
      (Relation.ReflTransGen.single (adjE_symm _ _ _ hadj)) ih

theorem EReach_mono (es es' : List (Nat × Nat)) (hsub : ∀ e ∈ es, e ∈ es')
    (u v : Nat) (h : EReach es u v) : EReach es' u v := by
  refine Relation.ReflTransGen.mono ?_ h
  intro a b hab
  rcases hab with h1 | h1
  · exact Or.inl (hsub _ h1)
  · exact Or.inr (hsub _ h1)

theorem EReach_nil (u v : Nat) (h : EReach [] u v) : u = v := by
  induction h with
  | refl => rfl
  | tail _ hadj _ =>
    rcases hadj with h1 | h1 <;> simp at h1

/-- Any labelling function constant on adjacent vertices is constant on
connected vertices. -/
theorem reach_const (es : List (Nat × Nat)) (g : Nat → Nat)
    (hstep : ∀ x y, adjE es x y → g x = g y) (u v : Nat)
    (h : EReach es u v) : g u = g v := by
  induction h with
  | refl => rfl
  | tail _ hadj ih => exact ih.trans (hstep _ _ hadj)

theorem getL_map (labels : List Nat) (f : Nat → Nat) (u : Nat)
    (hu : u < labels.length) :
    getL (labels.map f) u = f (getL labels u) := by
  unfold getL
  rw [List.getD_eq_getElem _ _ (by simpa using hu),
    List.getD_eq_getElem _ _ hu, List.getElem_map]

theorem getL_mem (labels : List Nat) (a : Nat) (h : a < labels.length) :
    getL labels a ∈ labels := by
  unfold getL
  rw [List.getD_eq_getElem _ _ h]
  exact List.getElem_mem h

theorem foldLabels_append (n : Nat) (es : List (Nat × Nat)) (e : Nat × Nat) :
    foldLabels n (es ++ [e]) = stepLabels (foldLabels n es) e := by
  unfold foldLabels
  rw [List.foldl_append]
  rfl

/-- The component labels computed by the spanning-forest fold characterise
connectivity: two in-range vertices get equal labels exactly when they are
joined by a path of processed edges. -/
theorem labels_reach (n : Nat) :
    ∀ es : List (Nat × Nat), (∀ e ∈ es, e.1 < n ∧ e.2 < n) →
      ∀ u v : Nat, u < n → v < n →
        (getL (foldLabels n es) u = getL (foldLabels n es) v ↔ EReach es u v) := by
  intro es
  induction es using List.reverseRecOn with
  | nil =>
    intro _ u v hu hv
    unfold foldLabels
    rw [List.foldl_nil, getL_range n u hu, getL_range n v hv]
    constructor
    · intro h; subst h; exact Relation.ReflTransGen.refl
    · exact EReach_nil u v
  | append_singleton es e ih =>
    intro hE u v hu hv
    have hE' : ∀ e' ∈ es, e'.1 < n ∧ e'.2 < n :=
      fun e' h' => hE e' (List.mem_append_left _ h')
    have he : e.1 < n ∧ e.2 < n := hE e (List.mem_append_right _ (by simp))
    have hlen : (foldLabels n es).length = n := foldLabels_length n es
    have hee : (e.1, e.2) ∈ es ++ [e] :=
      List.mem_append_right _ (by simp)
    rw [foldLabels_append]
    by_cases hcase : getL (foldLabels n es) e.1 = getL (foldLabels n es) e.2
    · have hstep : stepLabels (foldLabels n es) e = foldLabels n es := by
        unfold stepLabels; rw [if_pos hcase]
      rw [hstep]
      constructor
      · intro h
        exact EReach_mono es (es ++ [e]) (fun x hx => List.mem_append_left _ hx)
          u v ((ih hE' u v hu hv).mp h)
      · intro h
        refine reach_const (es ++ [e]) (getL (foldLabels n es)) ?_ u v h
        intro x y hxy
        rcases hxy with hm | hm
        · rcases List.mem_append.mp hm with h1 | h1
          · exact (ih hE' x y (hE' _ h1).1 (hE' _ h1).2).mpr
              (Relation.ReflTransGen.single (Or.inl h1))
          · have : (x, y) = e := by simpa using h1
            have hx1 : x = e.1 := by rw [← this]
            have hy2 : y = e.2 := by rw [← this]
            rw [hx1, hy2]; exact hcase
        · rcases List.mem_append.mp hm with h1 | h1
          · exact (ih hE' x y (hE' _ h1).2 (hE' _ h1).1).mpr
              (Relation.ReflTransGen.single (Or.inr h1))
          · have : (y, x) = e := by simpa using h1
            have hy1 : y = e.1 := by rw [← this]
            have hx2 : x = e.2 := by rw [← this]
            rw [hx2, hy1]; exact hcase.symm
    · have hstep : stepLabels (foldLabels n es) e =
          (foldLabels n es).map (fun x =>
            if x = getL (foldLabels n es) e.2
            then getL (foldLabels n es) e.1 else x) := by
        unfold stepLabels; rw [if_neg hcase]
      rw [hstep]
      rw [getL_map _ _ u (by rw [foldLabels_length n es]; exact hu),
        getL_map _ _ v (by rw [foldLabels_length n es]; exact hv)]
      set labels := foldLabels n es with hlabels
      set la := getL labels e.1 with hla
      set lb := getL labels e.2 with hlb
      have hmapla : (if la = lb then la else la) = la := by
        split <;> rfl
      constructor
      · intro h
        by_cases hu1 : getL labels u = lb <;> by_cases hv1 : getL labels v = lb
        · exact EReach_mono es (es ++ [e])
            (fun x hx => List.mem_append_left _ hx) u v
            ((ih hE' u v hu hv).mp (hu1.trans hv1.symm))
        · rw [if_pos hu1, if_neg hv1] at h
          have hv2 : getL labels v = la := h.symm
          have r1 : EReach es u e.2 :=
            (ih hE' u e.2 hu he.2).mp (by rw [hu1])
          have r2 : EReach es e.1 v :=
            EReach_symm es v e.1 ((ih hE' v e.1 hv he.1).mp (by rw [hv2]))
          have hadj : adjE (es ++ [e]) e.2 e.1 := Or.inr hee
          exact Relation.ReflTransGen.trans
            (EReach_mono es _ (fun x hx => List.mem_append_left _ hx) _ _ r1)
            (Relation.ReflTransGen.trans
              (Relation.ReflTransGen.single hadj)
              (EReach_mono es _ (fun x hx => List.mem_append_left _ hx) _ _ r2))
        · rw [if_neg hu1, if_pos hv1] at h
          have hu2 : getL labels u = la := h
          have r1 : EReach es u e.1 :=
            (ih hE' u e.1 hu he.1).mp (by rw [hu2])
          have r2 : EReach es e.2 v :=
            EReach_symm es v e.2 ((ih hE' v e.2 hv he.2).mp (by rw [hv1]))
          have hadj : adjE (es ++ [e]) e.1 e.2 := Or.inl hee
          exact Relation.ReflTransGen.trans
            (EReach_mono es _ (fun x hx => List.mem_append_left _ hx) _ _ r1)
            (Relation.ReflTransGen.trans
              (Relation.ReflTransGen.single hadj)
              (EReach_mono es _ (fun x hx => List.mem_append_left _ hx) _ _ r2))
        · rw [if_neg hu1, if_neg hv1] at h
          exact EReach_mono es (es ++ [e])
            (fun x hx => List.mem_append_left _ hx) u v
            ((ih hE' u v hu hv).mp h)
      · intro h
        refine reach_const (es ++ [e])
          (fun w => if getL labels w = lb then la else getL labels w) ?_ u v h
        intro x y hxy
        rcases hxy with hm | hm
        · rcases List.mem_append.mp hm with h1 | h1
          · have hg : getL labels x = getL labels y :=
              (ih hE' x y (hE' _ h1).1 (hE' _ h1).2).mpr
                (Relation.ReflTransGen.single (Or.inl h1))
            dsimp only
            rw [hg]
          · have : (x, y) = e := by simpa using h1
            have hx1 : x = e.1 := by rw [← this]
            have hy2 : y = e.2 := by rw [← this]
            dsimp only
            rw [hx1, hy2, ← hla, ← hlb]
            rw [if_neg hcase, if_pos rfl]
        · rcases List.mem_append.mp hm with h1 | h1
          · have hg : getL labels x = getL labels y :=
              ((ih hE' y x (hE' _ h1).1 (hE' _ h1).2).mpr
                (Relation.ReflTransGen.single (Or.inl h1))).symm
            dsimp only
            rw [hg]
          · have : (y, x) = e := by simpa using h1
            have hy1 : y = e.1 := by rw [← this]
            have hx2 : x = e.2 := by rw [← this]
            dsimp only
            rw [hx2, hy1, ← hla, ← hlb]
            rw [if_pos rfl, if_neg hcase]

theorem sssr_labels_component (E : List (Nat × Nat)) :
    ∀ (es : List (Nat × Nat)) (labels : List Nat) (rings : List (List Nat)),
      (es.foldl (sssrStep E) (labels, rings)).1 = es.foldl stepLabels labels := by
  intro es
  induction es with
  | nil => intro labels rings; rfl
  | cons e es ih =>
    intro labels rings
    rw [List.foldl_cons, List.foldl_cons]
    by_cases h : getL labels e.1 = getL labels e.2
    · have h1 : sssrStep E (labels, rings) e = (labels, rings ++ [ringFor E e]) := by
        unfold sssrStep; rw [if_pos h]
      have h2 : stepLabels labels e = labels := by
        unfold stepLabels; rw [if_pos h]
      rw [h1, h2, ih]
    · have h1 : sssrStep E (labels, rings) e = (stepLabels labels e, rings) := by
        unfold sssrStep; rw [if_neg h]
      rw [h1, ih]

theorem list_toFinset_map (l : List Nat) (f : Nat → Nat) :
    (l.map f).toFinset = l.toFinset.image f := by
  ext y
  simp [List.mem_map]

theorem stepLabels_toFinset_card (labels : List Nat) (e : Nat × Nat)
    (h1 : e.1 < labels.length) (h2 : e.2 < labels.length)
    (hne : getL labels e.1 ≠ getL labels e.2) :
    (stepLabels labels e).toFinset.card + 1 = labels.toFinset.card := by
  have hla : getL labels e.1 ∈ labels := getL_mem _ _ h1
  have hlb : getL labels e.2 ∈ labels := getL_mem _ _ h2
  unfold stepLabels
  rw [if_neg hne, list_toFinset_map]
  have himg : labels.toFinset.image
      (fun x => if x = getL labels e.2 then getL labels e.1 else x) =
      labels.toFinset.erase (getL labels e.2) := by
    ext y
    simp only [Finset.mem_image, Finset.mem_erase, List.mem_toFinset]
    constructor
    · rintro ⟨x, hx, hfx⟩
      by_cases hxl : x = getL labels e.2
      · rw [if_pos hxl] at hfx
        rw [← hfx]
        exact ⟨hne, hla⟩
      · rw [if_neg hxl] at hfx
        rw [← hfx]
        exact ⟨hxl, hx⟩
    · rintro ⟨hylb, hy⟩
      exact ⟨y, hy, by rw [if_neg hylb]⟩
  rw [himg]
  exact Finset.card_erase_add_one (List.mem_toFinset.mpr hlb)

theorem sssr_count (E : List (Nat × Nat)) :
    ∀ (es : List (Nat × Nat)) (labels : List Nat) (rings : List (List Nat)),
      (∀ e ∈ es, e.1 < labels.length ∧ e.2 < labels.length) →
      (es.foldl (sssrStep E) (labels, rings)).2.length + labels.toFinset.card =
        rings.length + es.length +
          (es.foldl stepLabels labels).toFinset.card := by
  intro es
  induction es with
  | nil => intro labels rings _; simp
  | cons e es ih =>
    intro labels rings hE
    obtain ⟨he1, he2⟩ := hE e (List.mem_cons_self _ _)
    have hE' : ∀ e' ∈ es, e'.1 < labels.length ∧ e'.2 < labels.length :=
      fun e' h' => hE e' (List.mem_cons_of_mem _ h')
    rw [List.foldl_cons, List.foldl_cons]
    by_cases h : getL labels e.1 = getL labels e.2
    · have h1 : sssrStep E (labels, rings) e = (labels, rings ++ [ringFor E e]) := by
        unfold sssrStep; rw [if_pos h]
      have h2 : stepLabels labels e = labels := by
        unfold stepLabels; rw [if_pos h]
      rw [h1, h2]
      have h3 := ih labels (rings ++ [ringFor E e]) hE'
      simp only [List.length_append, List.length_cons, List.length_nil] at h3 ⊢
      omega
    · have h1 : sssrStep E (labels, rings) e = (stepLabels labels e, rings) := by
        unfold sssrStep; rw [if_neg h]
      rw [h1]
      have hlen := stepLabels_length labels e
      have hE'' : ∀ e' ∈ es,
          e'.1 < (stepLabels labels e).length ∧
            e'.2 < (stepLabels labels e).length := by
        rw [hlen]; exact hE'
      have h3 := ih (stepLabels labels e) rings hE''
      have hcard := stepLabels_toFinset_card labels e he1 he2 h
      simp only [List.length_cons] at h3 ⊢
      omega

theorem sssrRings_count (n : Nat) (edges : List (Nat × Nat))
    (hE : ∀ e ∈ edges, e.1 < n ∧ e.2 < n) :
    (sssrRings n edges).length + n =
      edges.length + (foldLabels n edges).toFinset.card := by
  unfold sssrRings foldLabels
  have h := sssr_count edges edges (List.range n) []
    (by intro e he; rw [List.length_range]; exact hE e he)
  have hr : (List.range n).toFinset.card = n := by
    rw [List.toFinset_card_of_nodup (List.nodup_range n), List.length_range]
  simp only [List.length_nil] at h
  omega

theorem foldLabels_card_one (n : Nat) (edges : List (Nat × Nat)) (hn : 0 < n)
    (hE : ∀ e ∈ edges, e.1 < n ∧ e.2 < n)
    (hconn : ∀ v, v < n → EReach edges 0 v) :
    (foldLabels n edges).toFinset.card = 1 := by
  have hlen : (foldLabels n edges).length = n := foldLabels_length n edges
  have hall : ∀ x ∈ foldLabels n edges, x = getL (foldLabels n edges) 0 := by
    intro x hx
    rcases List.mem_iff_get.mp hx with ⟨⟨i, hi⟩, hgx⟩
    have hin : i < n := by rw [← hlen]; exact hi
    have hgl : getL (foldLabels n edges) i = x := by
      unfold getL
      rw [List.getD_eq_getElem _ _ hi, ← hgx]
      rfl
    have heqr := (labels_reach n edges hE 0 i hn hin).mpr (hconn i hin)
    rw [hgl] at heqr
    exact heqr.symm
  have h0 : getL (foldLabels n edges) 0 ∈ foldLabels n edges :=
    getL_mem _ _ (by rw [hlen]; exact hn)
  have hs : (foldLabels n edges).toFinset = {getL (foldLabels n edges) 0} := by
    ext y
    simp only [List.mem_toFinset, Finset.mem_singleton]
    exact ⟨fun hy => hall y hy, fun hy => by rw [hy]; exact h0⟩
  rw [hs, Finset.card_singleton]

/-- Modelled from the spec: `Atom` holds element symbol, formal charge,
radical-electron count and lone-pair count. -/
structure Atom where
  element : String
  charge : Int
  radicalElectrons : Nat
  lonePairs : Nat

/-- Modelled from the spec: `Bond` holds a numeric bond-order label. -/
structure Bond where
  order : Nat

/-- Modelled from the spec: a Molecule is a graph of Atom vertices (indexed
by position) and Bond edges between vertex indices. -/
structure Molecule where
  atoms : List Atom
  bonds : List (Nat × Nat × Bond)

/-- Modelled from the spec: the endpoint-index graph underlying a
molecule. -/
def Molecule.molEdges (m : Molecule) : List (Nat × Nat) :=
  m.bonds.map (fun t => (t.1, t.2.1))

/-- Modelled from the spec: `getSmallestSetOfSmallestRings`, returning each
ring as the ordered list of atom indices around the cycle. -/
def Molecule.getSmallestSetOfSmallestRings (m : Molecule) : List (List Nat) :=
  sssrRings m.atoms.length (Molecule.molEdges m)

/-- C6 — SSSR ring count: for a connected molecule graph the number of
returned rings is `|edges| - |vertices| + 1` (stated without truncated
subtraction as `rings + |V| = |E| + 1`). -/
theorem sssr_ring_count (m : Molecule) (hn : 0 < m.atoms.length)
    (hE : ∀ e ∈ Molecule.molEdges m,
      e.1 < m.atoms.length ∧ e.2 < m.atoms.length)
    (hconn : ∀ v, v < m.atoms.length → EReach (Molecule.molEdges m) 0 v) :
    (Molecule.getSmallestSetOfSmallestRings m).length + m.atoms.length =
      (Molecule.molEdges m).length + 1 := by
  have h := sssrRings_count m.atoms.length (Molecule.molEdges m) hE
  rw [foldLabels_card_one m.atoms.length (Molecule.molEdges m) hn hE hconn] at h
  exact h

/-- A concrete 3-membered ring of carbons (cyclopropane), as in the
repository's graph benchmarks. -/
def cyclopropane : Molecule :=
  { atoms := [⟨"C", 0, 0, 0⟩, ⟨"C", 0, 0, 0⟩, ⟨"C", 0, 0, 0⟩]
    bonds := [(0, 1, ⟨1⟩), (1, 2, ⟨1⟩), (2, 0, ⟨1⟩)] }

/-- A concrete 6-membered ring of carbons (cyclohexane), as in the
repository's graph benchmarks. -/
def cyclohexane : Molecule :=
  { atoms := [⟨"C", 0, 0, 0⟩, ⟨"C", 0, 0, 0⟩, ⟨"C", 0, 0, 0⟩,
      ⟨"C", 0, 0, 0⟩, ⟨"C", 0, 0, 0⟩, ⟨"C", 0, 0, 0⟩]
    bonds := [(0, 1, ⟨1⟩), (1, 2, ⟨1⟩), (2, 3, ⟨1⟩),
      (3, 4, ⟨1⟩), (4, 5, ⟨1⟩), (5, 0, ⟨1⟩)] }

/-- A concrete acyclic chain of three carbons (propane skeleton). -/
def propaneChain : Molecule :=
  { atoms := [⟨"C", 0, 0, 0⟩, ⟨"C", 0, 0, 0⟩, ⟨"C", 0, 0, 0⟩]
    bonds := [(0, 1, ⟨1⟩), (1, 2, ⟨1⟩)] }

/-- Witness for C6: cyclopropane gives one ring of length 3, cyclohexane
one ring of length 6, and the Betti-number count holds on cyclopropane. -/
theorem sssr_ring_count_witness :
    (Molecule.getSmallestSetOfSmallestRings cyclopropane).map List.length = [3] ∧
      (Molecule.getSmallestSetOfSmallestRings cyclohexane).map List.length = [6] ∧
      (Molecule.getSmallestSetOfSmallestRings cyclopropane).length +
          cyclopropane.atoms.length = (Molecule.molEdges cyclopropane).length + 1 :=
  ⟨by decide, by decide,
    sssr_ring_count cyclopropane (by decide) (by decide)
      (by
        intro v hv
        have hv3 : v < 3 := hv
        interval_cases v
        · exact Relation.ReflTransGen.refl
        · exact (labels_reach 3 (Molecule.molEdges cyclopropane) (by decide)
            0 1 (by decide) (by decide)).mp (by decide)
        · exact (labels_reach 3 (Molecule.molEdges cyclopropane) (by decide)
            0 2 (by decide) (by decide)).mp (by decide))⟩

/-- Modelled from the spec: a graph given as an edge list is acyclic when
no edge joins two vertices already connected by the edges listed before it
(equivalently, no edge ever closes a cycle). -/
def Acyclic (edges : List (Nat × Nat)) : Prop :=
  ∀ l1 e l2, edges = l1 ++ e :: l2 → ¬ EReach l1 e.1 e.2

theorem sssr_no_extra (E : List (Nat × Nat)) (n : Nat) :
    ∀ es : List (Nat × Nat), (∀ e ∈ es, e.1 < n ∧ e.2 < n) →
      (∀ l1 e l2, es = l1 ++ e :: l2 → ¬ EReach l1 e.1 e.2) →
      (es.foldl (sssrStep E) (List.range n, [])).2 = [] := by
  intro es
  induction es using List.reverseRecOn with
  | nil => intro _ _; rfl
  | append_singleton es e ih =>
    intro hE hacyc
    have hE' : ∀ e' ∈ es, e'.1 < n ∧ e'.2 < n :=
      fun e' h' => hE e' (List.mem_append_left _ h')
    have he : e.1 < n ∧ e.2 < n := hE e (List.mem_append_right _ (by simp))
    have hacyc' : ∀ l1 e' l2, es = l1 ++ e' :: l2 → ¬ EReach l1 e'.1 e'.2 := by
      intro l1 e' l2 hsplit
      exact hacyc l1 e' (l2 ++ [e]) (by rw [hsplit]; simp)
    have hfold : es.foldl (sssrStep E) (List.range n, []) = (foldLabels n es, []) := by
      have hc := sssr_labels_component E es (List.range n) []
      have hr := ih hE' hacyc'
      have : es.foldl (sssrStep E) (List.range n, []) =
          ((es.foldl (sssrStep E) (List.range n, [])).1,
           (es.foldl (sssrStep E) (List.range n, [])).2) := rfl
      rw [this, hc, hr]
      rfl
    rw [List.foldl_append, hfold]
    show (sssrStep E (foldLabels n es, []) e).2 = []
    unfold sssrStep
    rw [if_neg]
    intro hlab
    have hreach := (labels_reach n es hE' e.1 e.2 he.1 he.2).mp hlab
    exact hacyc es e [] rfl hreach

/-- C7 — SSSR on an acyclic (in particular degenerate single-vertex or
disconnected-tree) molecule graph returns the empty ring set; the function
is total, so no error is raised. -/
theorem sssr_acyclic_empty (m : Molecule)
    (hE : ∀ e ∈ Molecule.molEdges m,
      e.1 < m.atoms.length ∧ e.2 < m.atoms.length)
    (hacyc : Acyclic (Molecule.molEdges m)) :
    Molecule.getSmallestSetOfSmallestRings m = [] := by
  unfold Molecule.getSmallestSetOfSmallestRings sssrRings
  exact sssr_no_extra (Molecule.molEdges m) m.atoms.length
    (Molecule.molEdges m) hE hacyc

/-- Witness for C7: the three-carbon chain (acyclic) and the single-vertex
molecule both yield an empty ring set. -/
theorem sssr_acyclic_empty_witness :
    Molecule.getSmallestSetOfSmallestRings propaneChain = [] ∧
      Molecule.getSmallestSetOfSmallestRings
        { atoms := [⟨"C", 0, 0, 0⟩], bonds := [] } = [] := by
  constructor
  · apply sssr_acyclic_empty propaneChain (by decide)
    intro l1 e l2 heq'
    have heq : [((0 : Nat), (1 : Nat)), (1, 2)] = l1 ++ e :: l2 := heq'
    match l1, heq with
    | [], heq =>
      have he : e = (0, 1) := by
        simp only [List.nil_append] at heq
        exact ((List.cons.injEq _ _ _ _).mp heq.symm).1
      intro hr
      have h01 : (0 : Nat) = 1 := by
        have := EReach_nil e.1 e.2 hr
        rw [he] at this
        exact this
      exact absurd h01 (by decide)
    | [a], heq =>
      have hae : a = (0, 1) ∧ e = (1, 2) := by
        simp only [List.cons_append, List.nil_append] at heq
        have h1 := (List.cons.injEq _ _ _ _).mp heq.symm
        have h2 := (List.cons.injEq _ _ _ _).mp h1.2
        exact ⟨h1.1, h2.1⟩
      intro hr
      rw [hae.1, hae.2] at hr
      have := (labels_reach 3 [(0, 1)] (by decide) 1 2
        (by decide) (by decide)).mpr hr
      exact absurd this (by decide)
    | a :: b :: l1', heq =>
      have hlen := congrArg List.length heq
      simp only [List.length_cons, List.length_append, List.length_nil] at hlen
      intro _
      omega
  · apply sssr_acyclic_empty { atoms := [⟨"C", 0, 0, 0⟩], bonds := [] }
      (by decide)
    intro l1 e l2 heq'
    have heq : ([] : List (Nat × Nat)) = l1 ++ e :: l2 := heq'
    have hlen := congrArg List.length heq
    simp only [List.length_cons, List.length_append, List.length_nil] at hlen
    intro _
    omega

/-- Modelled from the spec: `Atom.equivalent` — element symbol, formal
charge and radical-electron count must match exactly (lone pairs are
informative only). -/
def Atom.equivalent (a b : Atom) : Bool :=
  a.element == b.element && a.charge == b.charge &&
    a.radicalElectrons == b.radicalElectrons

/-- Modelled from the spec: `Bond.equivalent` — bond-order labels must
match exactly. -/
def Bond.equivalent (a b : Bond) : Bool :=
  a.order == b.order

/-- The bond between two atom indices, if any (undirected lookup). -/
def Molecule.getBond (m : Molecule) (i j : Nat) : Option Bond :=
  (m.bonds.find? (fun t =>
    (t.1 == i && t.2.1 == j) || (t.1 == j && t.2.1 == i))).map
    (fun t => t.2.2)

/-- Edge-level agreement under a candidate mapping: both pairs bonded with
equivalent bonds, or both unbonded. -/
def bondOptEquiv : Option Bond → Option Bond → Bool
  | some a, some b => Bond.equivalent a b
  | none, none => true
  | _, _ => false

/-- Modelled from the spec: full-graph `isIsomorphic` — true exactly when
some bijection of atom positions preserves atom equivalence and, for every
pair of positions, bond presence and bond equivalence. -/
def Molecule.isIsomorphic (m1 m2 : Molecule) : Bool :=
  decide (∃ σ : Fin m1.atoms.length ≃ Fin m2.atoms.length,
    (∀ i : Fin m1.atoms.length,
      Atom.equivalent (m1.atoms.get i) (m2.atoms.get (σ i)) = true) ∧
    (∀ i j : Fin m1.atoms.length,
      bondOptEquiv (Molecule.getBond m1 i j)
        (Molecule.getBond m2 (σ i) (σ j)) = true))

/-- C8 — `isIsomorphic` is reflexive: the identity mapping matches every
molecule with itself. -/
theorem isIsomorphic_refl (m : Molecule) :
    Molecule.isIsomorphic m m = true := by
  unfold Molecule.isIsomorphic
  rw [decide_eq_true_eq]
  refine ⟨Equiv.refl _, fun i => ?_, fun i j => ?_⟩
  · simp only [Equiv.refl_apply]
    unfold Atom.equivalent
    simp
  · simp only [Equiv.refl_apply]
    cases hb : Molecule.getBond m i j with
    | none => rfl
    | some b =>
      show Bond.equivalent b b = true
      unfold Bond.equivalent
      simp
